import Mathlib

/-!
Verification of the cross-corpus test-coverage and duplicate-implementation
analysis engine of the neo_cpp repository.

The development shallowly embeds the relevant Python code:
  * `scripts/check_duplicates.py` (class `DuplicateChecker`),
  * `scripts/check_implementation_duplicates.py` (class `ImplementationDuplicateChecker`),
  * `analyze_test_coverage.py` (class `TestCoverageAnalyzer`).

Text is modelled as `List Char` (Python `str`); where the scripts use
regular expressions the equivalent character-list scanner is given.
Python `float` division results are modelled as exact rationals (`ℚ`).
Definitions whose doc comment starts with "Modelled from the spec" translate
the specification's words rather than the code, and exist only to be compared
with the code's definitions.
-/

namespace NeoAnalysis

/-- Python `\s` / `str.split()` whitespace: space, tab, newline, carriage
return, vertical tab, form feed (the corpora are ASCII). -/
def pyIsSpace (c : Char) : Bool :=
  c = ' ' || c = '\t' || c = '\n' || c = '\r' || c = Char.ofNat 11 || c = Char.ofNat 12

/-- `isPfxOf p l` holds when `p` is a leading run of `l`. -/
def isPfxOf : List Char → List Char → Bool
  | [], _ => true
  | _ :: _, [] => false
  | a :: as, b :: bs => a = b && isPfxOf as bs

/-- Remove a leading occurrence of the first argument, returning the rest. -/
def stripPfx : List Char → List Char → Option (List Char)
  | [], l => some l
  | _ :: _, [] => none
  | a :: as, b :: bs => if a = b then stripPfx as bs else none

/-- `isSubOf pat hay` models Python `pat in hay` on strings: `pat` occurs
contiguously in `hay` (an empty `pat` always occurs). -/
def isSubOf (pat : List Char) : List Char → Bool
  | [] => pat.isEmpty
  | c :: t => isPfxOf pat (c :: t) || isSubOf pat t

/-- `isSfxOf p l` models Python `l.endswith(p)`. -/
def isSfxOf (p l : List Char) : Bool := isPfxOf p.reverse l.reverse

/-- Scanner equivalent of `re.sub(r'//.*$', '', content, flags=re.MULTILINE)`
in `DuplicateChecker.remove_comments`: from each `//` on, characters are
dropped up to (excluding) the next newline.  The Boolean is the
inside-a-line-comment state. -/
def stripLC : Bool → List Char → List Char
  | _, [] => []
  | true, c :: rest => if c = '\n' then c :: stripLC false rest else stripLC true rest
  | false, '/' :: '/' :: rest => stripLC true rest
  | false, c :: rest => c :: stripLC false rest

/-- Does `*/` occur in the list?  Used to decide whether a `/*` opens a
block comment that the non-greedy regex `/\*.*?\*/` can close. -/
def hasClose : List Char → Bool
  | '*' :: '/' :: _ => true
  | _ :: rest => hasClose rest
  | [] => false

/-- Scanner equivalent of `re.sub(r'/\*.*?\*/', '', content, flags=re.DOTALL)`
in `DuplicateChecker.remove_comments`: each `/*` with a later `*/` is removed
together with everything up to the nearest `*/`; a `/*` with no later `*/`
stays (the regex finds no match there, and none can start later either,
since any match needs a `*/`). -/
def stripBC : Bool → List Char → List Char
  | true, '*' :: '/' :: rest => stripBC false rest
  | true, _ :: rest => stripBC true rest
  | true, [] => []
  | false, '/' :: '*' :: rest =>
      if hasClose rest then stripBC true rest else '/' :: '*' :: stripBC false rest
  | false, c :: rest => c :: stripBC false rest
  | false, [] => []

/-- `DuplicateChecker.remove_comments`: line comments are removed first, then
block comments. -/
def removeComments (l : List Char) : List Char := stripBC false (stripLC false l)

/-- `re.sub(r'\s+', '', …)` in `DuplicateChecker.calculate_similarity`:
every whitespace character is deleted. -/
def removeAllWs (l : List Char) : List Char := l.filter (fun c => !pyIsSpace c)

/-- Accumulator worker for `pysplit`; `cur` is the reversed current token. -/
def pysplitGo (cur : List Char) : List Char → List (List Char)
  | [] => if cur.isEmpty then [] else [cur.reverse]
  | c :: rest =>
      if pyIsSpace c then
        if cur.isEmpty then pysplitGo [] rest else cur.reverse :: pysplitGo [] rest
      else pysplitGo (c :: cur) rest

/-- Python `str.split()` with no argument: maximal runs of non-whitespace,
empty tokens never produced. -/
def pysplit (l : List Char) : List (List Char) := pysplitGo [] l

/-- Worker for `collapseWs`; the Boolean records whether the previous
character was whitespace. -/
def collapseWsGo (prevSpace : Bool) : List Char → List Char
  | [] => []
  | c :: rest =>
      if pyIsSpace c then
        if prevSpace then collapseWsGo true rest else ' ' :: collapseWsGo true rest
      else c :: collapseWsGo false rest

/-- Modelled from the spec: whitespace collapsing (each run of whitespace
becomes a single space), used only by the spec-side similarity metric. -/
def collapseWs (l : List Char) : List Char := collapseWsGo false l

/-- The cleaned form `re.sub(r'\s+', '', self.remove_comments(content))`
computed at the top of `DuplicateChecker.calculate_similarity`. -/
def cleanForCompare (content : String) : List Char :=
  removeAllWs (removeComments content.toList)

/-- `DuplicateChecker.calculate_similarity`: comments and all whitespace are
removed, the result is split on whitespace into token sets, and the Jaccard
ratio is returned; if either cleaned text is empty the score is `0.0`, and a
zero union is also guarded to `0.0`. -/
def calculate_similarity (content1 content2 : String) : ℚ :=
  let clean1 := cleanForCompare content1
  let clean2 := cleanForCompare content2
  if clean1.isEmpty || clean2.isEmpty then 0
  else
    let set1 := (pysplit clean1).toFinset
    let set2 := (pysplit clean2).toFinset
    let inter := (set1 ∩ set2).card
    let uni := (set1 ∪ set2).card
    if 0 < uni then (inter : ℚ) / (uni : ℚ) else 0

/-- Modelled from the spec: "treat each SourceUnit's comment-stripped,
whitespace-collapsed content as a multiset of whitespace-delimited tokens;
similarity = |intersection| / |union| (Jaccard over token sets); two empty
token sets yield similarity 0". -/
def specSimilarity (content1 content2 : String) : ℚ :=
  let t1 := (pysplit (collapseWs (removeComments content1.toList))).toFinset
  let t2 := (pysplit (collapseWs (removeComments content2.toList))).toFinset
  if t1 = ∅ ∧ t2 = ∅ then 0
  else ((t1 ∩ t2).card : ℚ) / ((t1 ∪ t2).card : ℚ)

/-- C1: the code diverges from the claimed Jaccard-over-tokens metric.  On
`"a b"` versus `"a c"` the token-set Jaccard index is `1/3`, but
`calculate_similarity` deletes every whitespace character before splitting,
so each text collapses to a single token and the score is `0`. -/
theorem calculate_similarity_not_token_jaccard :
    calculate_similarity "a b" "a c" = 0 ∧ specSimilarity "a b" "a c" = 1 / 3 := by
  constructor
  · have h1 : cleanForCompare "a b" = ['a', 'b'] := by decide
    have h2 : cleanForCompare "a c" = ['a', 'c'] := by decide
    have hI : ((pysplit ['a', 'b']).toFinset ∩ (pysplit ['a', 'c']).toFinset).card = 0 := by
      decide
    have hU : ((pysplit ['a', 'b']).toFinset ∪ (pysplit ['a', 'c']).toFinset).card = 2 := by
      decide
    simp only [calculate_similarity, h1, h2, hI, hU]
    norm_num
  · have h1 : collapseWs (removeComments "a b".toList) = ['a', ' ', 'b'] := by decide
    have h2 : collapseWs (removeComments "a c".toList) = ['a', ' ', 'c'] := by decide
    have hI : ((pysplit ['a', ' ', 'b']).toFinset ∩ (pysplit ['a', ' ', 'c']).toFinset).card = 1 := by
      decide
    have hU : ((pysplit ['a', ' ', 'b']).toFinset ∪ (pysplit ['a', ' ', 'c']).toFinset).card = 3 := by
      decide
    have hne : ¬((pysplit ['a', ' ', 'b']).toFinset = ∅ ∧ (pysplit ['a', ' ', 'c']).toFinset = ∅) := by
      decide
    simp only [specSimilarity, h1, h2, hI, hU, hne, if_false]
    norm_num

lemma mem_removeAllWs_not_space {l : List Char} {c : Char} (h : c ∈ removeAllWs l) :
    pyIsSpace c = false := by
  simp only [removeAllWs, List.mem_filter, Bool.not_eq_true'] at h
  exact h.2

lemma pysplitGo_all_nonspace :
    ∀ (l cur : List Char), (∀ c ∈ l, pyIsSpace c = false) → (cur ≠ [] ∨ l ≠ []) →
      pysplitGo cur l = [cur.reverse ++ l] := by
  intro l
  induction l with
  | nil =>
      intro cur _ hne
      have hcur : cur ≠ [] := hne.resolve_right (fun h => h rfl)
      simp [pysplitGo, hcur]
  | cons c rest ih =>
      intro cur hns _
      have hc : pyIsSpace c = false := hns c (by simp)
      have ih' := ih (c :: cur) (fun d hd => hns d (by simp [hd])) (Or.inl (by simp))
      simp [pysplitGo, hc, ih']

lemma pysplit_of_nonspace {l : List Char} (h : ∀ c ∈ l, pyIsSpace c = false)
    (hne : l ≠ []) : pysplit l = [l] := by
  simpa using pysplitGo_all_nonspace l [] h (Or.inr hne)

/-- C10 (counterexample to the claim as stated): the texts `" "` and `""` are
identical after comment removal and whitespace deletion (both clean to the
empty string), yet the similarity is `0`, not `1.0`, because of the
empty-text guard. -/
theorem calculate_similarity_empty_equal_zero :
    cleanForCompare " " = cleanForCompare "" ∧ calculate_similarity " " "" = 0 := by
  refine ⟨by decide, ?_⟩
  have h : cleanForCompare " " = [] := by decide
  simp [calculate_similarity, h]

/-- C10 (amended): the similarity score is always exactly `0` or exactly `1`:
it is `1` precisely when the two texts are identical and non-empty after
comment removal and deletion of all whitespace, and `0` otherwise (each
non-empty cleaned text yields the single token consisting of the whole
cleaned text). -/
theorem calculate_similarity_degenerate (c1 c2 : String) :
    calculate_similarity c1 c2 =
      if cleanForCompare c1 = cleanForCompare c2 ∧ cleanForCompare c1 ≠ [] then 1 else 0 := by
  by_cases hA : cleanForCompare c1 = []
  · rw [if_neg (by rintro ⟨-, hne⟩; exact hne hA)]
    simp [calculate_similarity, hA]
  · by_cases hB : cleanForCompare c2 = []
    · rw [if_neg (by rintro ⟨heq, -⟩; exact hA (heq.trans hB))]
      simp [calculate_similarity, hB]
    · have hsA : pysplit (cleanForCompare c1) = [cleanForCompare c1] :=
        pysplit_of_nonspace (fun c hc => mem_removeAllWs_not_space hc) hA
      have hsB : pysplit (cleanForCompare c2) = [cleanForCompare c2] :=
        pysplit_of_nonspace (fun c hc => mem_removeAllWs_not_space hc) hB
      have hAe : (cleanForCompare c1).isEmpty = false := by
        cases h : cleanForCompare c1 with
        | nil => exact absurd h hA
        | cons _ _ => rfl
      have hBe : (cleanForCompare c2).isEmpty = false := by
        cases h : cleanForCompare c2 with
        | nil => exact absurd h hB
        | cons _ _ => rfl
      by_cases heq : cleanForCompare c1 = cleanForCompare c2
      · rw [if_pos ⟨heq, hA⟩]
        simp only [calculate_similarity, ← heq, hsA]
        simp only [List.toFinset_cons, List.toFinset_nil, insert_emptyc_eq,
          Finset.inter_self, Finset.union_self, Finset.card_singleton, hAe,
          Bool.or_self, Bool.false_eq_true, if_false]
        norm_num
      · rw [if_neg (by rintro ⟨h, -⟩; exact heq h)]
        have hI : ({cleanForCompare c1} ∩ {cleanForCompare c2} : Finset (List Char)) = ∅ :=
          Finset.singleton_inter_of_not_mem (by simp [heq])
        have hU : ({cleanForCompare c1} ∪ {cleanForCompare c2} : Finset (List Char)).card = 2 := by
          rw [← Finset.insert_eq, Finset.card_insert_of_not_mem (by simp [heq])]
          simp
        simp only [calculate_similarity, hsA, hsB, List.toFinset_cons, List.toFinset_nil,
          insert_emptyc_eq, hI, hU, hAe, hBe, Bool.or_self, Bool.false_eq_true, if_false,
          Finset.card_empty]
        norm_num

/-- The `duplicate_suffixes` list of `ImplementationDuplicateChecker.__init__`. -/
def implSuffixes : List String :=
  ["_complete", "_minimal", "_fixed", "_broken", "_simple",
   "_full", "_impl", "_old", "_new", "_stubs", "_partial",
   "_standalone", "_testnet"]

/-- The suffix-stripping step of
`ImplementationDuplicateChecker.find_implementation_files`: the first listed
suffix that the stem ends with is stripped once (`file_stem[:-len(suffix)]`,
then `break`); a stem ending in no listed suffix is left unchanged. -/
def stripOneSuffix (stem : String) : String :=
  match implSuffixes.find? (fun s => isSfxOf s.toList stem.toList) with
  | some s => (stem.toList.take (stem.toList.length - s.toList.length)).asString
  | none => stem

/-- The literal alternatives of the `suffix_pattern` regex
`(_complete|_minimal|_fixed|_broken|_simple|_full|_impl|_test|_old|_new|_v\d+)`
in `DuplicateChecker.find_similar_filenames` (the `_v\d+` alternative is
handled separately in `matchAlt`). -/
def suffixLits : List (List Char) :=
  ["_complete".toList, "_minimal".toList, "_fixed".toList, "_broken".toList,
   "_simple".toList, "_full".toList, "_impl".toList, "_test".toList,
   "_old".toList, "_new".toList]

/-- Regex `\d`: an ASCII digit. -/
def isDigitCh (c : Char) : Bool := '0' ≤ c && c ≤ '9'

/-- One attempted match of the `suffix_pattern` alternation at the head of
`l`: alternatives are tried in their listed order, `_v\d+` last and greedy;
on success the matched characters are dropped and the remainder returned. -/
def matchAlt (l : List Char) : Option (List Char) :=
  match suffixLits.find? (fun p => isPfxOf p l) with
  | some p => some (l.drop p.length)
  | none =>
      match l with
      | '_' :: 'v' :: d :: rest =>
          if isDigitCh d then some ((d :: rest).dropWhile isDigitCh) else none
      | _ => none

/-- Fuel-indexed scanner for `re.sub(suffix_pattern, '', stem)`: left to
right, non-overlapping; at each position either an alternation match is
removed or the character is kept.  Every step consumes at least one
character, so fuel equal to the initial length (as supplied by
`subAllSuffixPat`) never runs out and the `0, l` fallback is unreachable. -/
def subAllFuel : Nat → List Char → List Char
  | _, [] => []
  | 0, l => l
  | fuel + 1, c :: rest =>
      match matchAlt (c :: rest) with
      | some rem => subAllFuel fuel rem
      | none => c :: subAllFuel fuel rest

/-- The base-name normalization `suffix_pattern.sub('', file.stem)` of
`DuplicateChecker.find_similar_filenames`. -/
def subAllSuffixPat (l : List Char) : List Char := subAllFuel l.length l

/-- No position of `l` starts a `suffix_pattern` match. -/
def noAltOccur : List Char → Bool
  | [] => true
  | c :: rest => (matchAlt (c :: rest)).isNone && noAltOccur rest

lemma stripOneSuffix_eq_self {s : String}
    (h : implSuffixes.find? (fun t => isSfxOf t.toList s.toList) = none) :
    stripOneSuffix s = s := by
  unfold stripOneSuffix
  rw [h]

lemma subAllFuel_of_noAltOccur :
    ∀ (fuel : Nat) (l : List Char), l.length ≤ fuel → noAltOccur l = true →
      subAllFuel fuel l = l := by
  intro fuel
  induction fuel with
  | zero =>
      intro l hl _
      have : l = [] := List.length_eq_zero.mp (Nat.le_zero.mp hl)
      subst this
      rfl
  | succ n ih =>
      intro l hl hno
      cases l with
      | nil => rfl
      | cons c rest =>
          simp only [noAltOccur, Bool.and_eq_true, Option.isNone_iff_eq_none] at hno
          simp only [subAllFuel, hno.1]
          rw [ih rest (by simpa using hl) hno.2]

/-- C2 (counterexample): name normalization is not idempotent.  The stem
`"foo_impl_old"` ends with `_old`, which is stripped first, leaving
`"foo_impl"`; a second application strips `_impl` as well, so
`normalize(normalize(x)) ≠ normalize(x)`. -/
theorem stripOneSuffix_not_idempotent :
    stripOneSuffix (stripOneSuffix "foo_impl_old") ≠ stripOneSuffix "foo_impl_old" := by
  decide

/-- C2 (amended): normalization strips one trailing decoration
(`find_implementation_files`) or one left-to-right pass of decoration
occurrences (`find_similar_filenames`), and a second application can strip
further (see the counterexample); it is idempotent exactly on the inputs
whose once-normalized form triggers no further suffix match, as stated
here. -/
theorem normalize_idempotent_when_stable (x : String) (y : List Char)
    (h1 : implSuffixes.find? (fun t => isSfxOf t.toList (stripOneSuffix x).toList) = none)
    (h2 : noAltOccur (subAllSuffixPat y) = true) :
    stripOneSuffix (stripOneSuffix x) = stripOneSuffix x ∧
    subAllSuffixPat (subAllSuffixPat y) = subAllSuffixPat y := by
  refine ⟨stripOneSuffix_eq_self h1, ?_⟩
  exact subAllFuel_of_noAltOccur (subAllSuffixPat y).length _ le_rfl h2

/-- C2 (witness): the amended idempotence applied to the stem `"foo_old"`,
whose normal form `"foo"` carries no decoration. -/
theorem normalize_idempotent_witness :
    stripOneSuffix (stripOneSuffix "foo_old") = stripOneSuffix "foo_old" ∧
    subAllSuffixPat (subAllSuffixPat "foo_old".toList) = subAllSuffixPat "foo_old".toList :=
  normalize_idempotent_when_stable "foo_old" "foo_old".toList (by decide) (by decide)

/-- Python `pat in hay` on strings. -/
def strContains (hay pat : String) : Bool := isSubOf pat.toList hay.toList

/-- One entry of `group_info['files']` in
`ImplementationDuplicateChecker.generate_report`, restricted to the fields
the main-file selection and recommendations consult. -/
structure FileInfo where
  name : String
  cmake_usage : List String
  functions : List String
deriving DecidableEq

/-- `any(suffix in f['name'] for suffix in self.duplicate_suffixes)`:
substring (not end-of-stem) test against the known decorations. -/
def hasSuffixDecor (name : String) : Bool := implSuffixes.any (fun s => strContains name s)

/-- First loop of the main-file selection in `generate_report`: the first
file whose name contains no known suffix decoration. -/
def firstSuffixFree : List FileInfo → Option FileInfo
  | [] => none
  | f :: rest => if hasSuffixDecor f.name then firstSuffixFree rest else some f

/-- Second loop of the main-file selection: the first file with a non-empty
`cmake_usage` list. -/
def firstCmakeUsed : List FileInfo → Option FileInfo
  | [] => none
  | f :: rest => if f.cmake_usage.isEmpty then firstCmakeUsed rest else some f

/-- The `likely_main_file` computation of
`ImplementationDuplicateChecker.generate_report`: first suffix-free member,
else first build-referenced member, else `None`. -/
def likelyMainFile (files : List FileInfo) : Option String :=
  match firstSuffixFree files with
  | some f => some f.name
  | none => (firstCmakeUsed files).map FileInfo.name

/-- Modelled from the spec: canonical-file selection policy of §4.3 —
(1) the unique suffix-free member; (2) if none or multiple qualify, the
build-referenced ("active") member; (3) otherwise the member with the
largest function-name set; remaining ties are surfaced as ambiguous
(no canonical file). -/
def specCanonical (files : List FileInfo) : Option FileInfo :=
  match files.filter (fun f => !hasSuffixDecor f.name) with
  | [f] => some f
  | _ =>
      match files.filter (fun f => !f.cmake_usage.isEmpty) with
      | [f] => some f
      | _ =>
          let m := (files.map (fun f => f.functions.dedup.length)).foldr max 0
          match files.filter (fun f => f.functions.dedup.length = m) with
          | [f] => some f
          | _ => none

lemma firstSuffixFree_eq_find (files : List FileInfo) :
    firstSuffixFree files = files.find? (fun f => !hasSuffixDecor f.name) := by
  induction files with
  | nil => rfl
  | cons f rest ih =>
      by_cases h : hasSuffixDecor f.name <;>
        simp [firstSuffixFree, List.find?_cons, h, ih]

lemma firstCmakeUsed_eq_find (files : List FileInfo) :
    firstCmakeUsed files = files.find? (fun f => !f.cmake_usage.isEmpty) := by
  induction files with
  | nil => rfl
  | cons f rest ih =>
      by_cases h : f.cmake_usage.isEmpty <;>
        simp [firstCmakeUsed, List.find?_cons, h, ih]

/-- C3 (counterexample): in a group where every member name carries a suffix
decoration and none is referenced from CMake, the spec's rule (3) selects the
member with the largest function-name set (`x_impl.cpp`, two functions), but
the code has no such rule and reports no main file at all. -/
theorem likelyMainFile_no_function_rule :
    likelyMainFile
        [⟨"x_impl.cpp", [], ["a", "b"]⟩, ⟨"x_old.cpp", [], ["a"]⟩] = none ∧
      (specCanonical
        [⟨"x_impl.cpp", [], ["a", "b"]⟩, ⟨"x_old.cpp", [], ["a"]⟩]).map FileInfo.name
        = some "x_impl.cpp" := by
  decide

/-- C3 (amended): the code's canonical choice is the first member (in the
group's listed order) whose filename contains no known suffix decoration;
failing that, the first member with non-empty CMake usage; failing that, no
canonical file is chosen (`likely_main_file` is `None`, printed as
"Unknown").  Uniqueness is not checked and no largest-function-set rule
exists. -/
theorem likelyMainFile_policy (files : List FileInfo) :
    likelyMainFile files =
      (((files.find? (fun f => !hasSuffixDecor f.name)).map FileInfo.name).or
        ((files.find? (fun f => !f.cmake_usage.isEmpty)).map FileInfo.name)) := by
  unfold likelyMainFile
  rw [firstSuffixFree_eq_find, firstCmakeUsed_eq_find]
  cases files.find? (fun f => !hasSuffixDecor f.name) <;>
    simp [Option.or]

/-- Python `str.lower()` on ASCII identifiers. -/
def lowerStr (l : List Char) : List Char := l.map Char.toLower

/-- Fuel-indexed scanner for Python `str.replace(pat, '')` with a non-empty
pattern: left to right, non-overlapping occurrences of `pat` are deleted.
Each deletion consumes at least one character (call sites use non-empty
patterns), so fuel equal to the initial length (as supplied by `removeOcc`)
never runs out. -/
def removeOccFuel (pat : List Char) : Nat → List Char → List Char
  | _, [] => []
  | 0, l => l
  | fuel + 1, c :: rest =>
      match stripPfx pat (c :: rest) with
      | some rem => removeOccFuel pat fuel rem
      | none => c :: removeOccFuel pat fuel rest

/-- Python `str.replace(pat, '')`. -/
def removeOcc (pat l : List Char) : List Char := removeOccFuel pat l.length l

/-- `cs_clean = cs_lower.replace('test_', '').replace('ut_', '').replace('test', '')`
in `TestCoverageAnalyzer.map_test_names`. -/
def csCleanOf (csLower : List Char) : List Char :=
  removeOcc "test".toList (removeOcc "ut_".toList (removeOcc "test_".toList csLower))

/-- The `mappings` dict of `TestCoverageAnalyzer._similar_test_name`, in
insertion order. -/
def mappings : List (List Char × List Char) :=
  [("serialize".toList, "serializ".toList),
   ("deserialize".toList, "deserializ".toList),
   ("parse".toList, "pars".toList),
   ("tostring".toList, "tostring".toList),
   ("tohex".toList, "tohex".toList),
   ("equals".toList, "equal".toList),
   ("compare".toList, "compar".toList),
   ("create".toList, "creat".toList),
   ("verify".toList, "verif".toList),
   ("sign".toList, "sign".toList),
   ("hash".toList, "hash".toList),
   ("encrypt".toList, "encrypt".toList),
   ("decrypt".toList, "decrypt".toList)]

/-- `TestCoverageAnalyzer._similar_test_name`: some mapping whose left stem
occurs in the lowered C# name and whose right stem occurs in the lowered C++
name. -/
def similarTestName (csName cppName : String) : Bool :=
  mappings.any (fun m =>
    isSubOf m.1 (lowerStr csName.toList) && isSubOf m.2 (lowerStr cppName.toList))

/-- The `for cpp_name in cpp_names` loop of
`TestCoverageAnalyzer.map_test_names`: three rules tried in order
(bidirectional containment, cleaned-name containment, synonym stems); the
first that fires appends the candidate name — with no record of which rule
fired. -/
def mapTestGo (csName : String) (csLower csClean : List Char) :
    List String → List String
  | [] => []
  | cpp :: rest =>
      let cppLower := lowerStr cpp.toList
      if isSubOf csLower cppLower || isSubOf cppLower csLower then
        cpp :: mapTestGo csName csLower csClean rest
      else if !csClean.isEmpty && isSubOf csClean cppLower then
        cpp :: mapTestGo csName csLower csClean rest
      else if similarTestName csName cpp then
        cpp :: mapTestGo csName csLower csClean rest
      else mapTestGo csName csLower csClean rest

/-- `TestCoverageAnalyzer.map_test_names`. -/
def mapTestNames (csName : String) (cppNames : List String) : List String :=
  mapTestGo csName (lowerStr csName.toList) (csCleanOf (lowerStr csName.toList)) cppNames

/-- Rule 1 of `map_test_names`: either lowered name contains the other. -/
def directMatch (cs cpp : String) : Bool :=
  isSubOf (lowerStr cs.toList) (lowerStr cpp.toList) ||
    isSubOf (lowerStr cpp.toList) (lowerStr cs.toList)

/-- Rule 2 of `map_test_names`: the cleaned C# name is non-empty and occurs
in the lowered C++ name. -/
def cleanSubMatch (cs cpp : String) : Bool :=
  !(csCleanOf (lowerStr cs.toList)).isEmpty &&
    isSubOf (csCleanOf (lowerStr cs.toList)) (lowerStr cpp.toList)

/-- The categorical match method of the specification's coverage mapping. -/
inductive MatchMethod where
  | exactEq
  | substring
  | synonym
deriving DecidableEq

/-- Modelled from the spec: the §4.5 matching policy with its method tag —
(1) exact equality of normalized names; (2) substring either way after
stripping the generic filler tokens "test"/"ut" from both sides; (3) the
synonym stem table; first hit wins and the method is recorded. -/
def specMatchMethod (cs cpp : String) : Option MatchMethod :=
  let ncs := lowerStr cs.toList
  let ncpp := lowerStr cpp.toList
  let scs := removeOcc "ut".toList (removeOcc "test".toList ncs)
  let scpp := removeOcc "ut".toList (removeOcc "test".toList ncpp)
  if ncs = ncpp then some MatchMethod.exactEq
  else if isSubOf scs scpp || isSubOf scpp scs then some MatchMethod.substring
  else if mappings.any (fun m => isSubOf m.1 ncs && isSubOf m.2 ncpp) then
    some MatchMethod.synonym
  else none

/-- C4 (counterexample): the reference test `Serialize` and candidate test
`TestSerial` match under the specification's substring rule (after stripping
the filler token "test" from both sides, `serial` occurs in `serialize`),
but `map_test_names` — whose second rule only strips fillers from the C#
side and only checks one containment direction — produces no match at all;
a fortiori no coverage-mapping entry with a method tag exists. -/
theorem mapTestNames_misses_substring_match :
    specMatchMethod "Serialize" "TestSerial" = some MatchMethod.substring ∧
      mapTestNames "Serialize" ["TestSerial"] = [] := by
  decide

/-- C4 (amended): `map_test_names` applies, per candidate, three rules in
order with the first hit winning — bidirectional containment of the lowered
names, containment of the filler-stripped C# name in the lowered candidate,
then the synonym-stem table — and a candidate is kept exactly when some rule
fires; the resulting entries are bare names carrying no record of the
matching method. -/
theorem mapTestNames_filter_characterization (cs : String) (l : List String) :
    mapTestNames cs l =
      l.filter (fun cpp => directMatch cs cpp || cleanSubMatch cs cpp || similarTestName cs cpp) := by
  unfold mapTestNames
  induction l with
  | nil => rfl
  | cons cpp rest ih =>
      have step : mapTestGo cs (lowerStr cs.toList) (csCleanOf (lowerStr cs.toList)) (cpp :: rest) =
          (if directMatch cs cpp then
            cpp :: mapTestGo cs (lowerStr cs.toList) (csCleanOf (lowerStr cs.toList)) rest
          else if cleanSubMatch cs cpp then
            cpp :: mapTestGo cs (lowerStr cs.toList) (csCleanOf (lowerStr cs.toList)) rest
          else if similarTestName cs cpp then
            cpp :: mapTestGo cs (lowerStr cs.toList) (csCleanOf (lowerStr cs.toList)) rest
          else mapTestGo cs (lowerStr cs.toList) (csCleanOf (lowerStr cs.toList)) rest) := rfl
      rw [step, ih, List.filter_cons]
      cases hd : directMatch cs cpp <;> cases hc : cleanSubMatch cs cpp <;>
        cases hs : similarTestName cs cpp <;> simp [hd, hc, hs]

/-- The per-category record built by `TestCoverageAnalyzer.analyze_coverage`
(`analysis['categories'][category]`), with the coverage percentage as an
exact rational. -/
structure CategoryAnalysis where
  csCount : Nat
  cppCount : Nat
  covered : Nat
  missing : List String
  coverage : ℚ
deriving DecidableEq

/-- The `for cs_test in cs_tests` loop of `analyze_coverage`: each reference
test either increments `covered` (when `map_test_names` finds at least one
match) or is appended to `missing`. -/
def coverScan (cppTests : List String) : List String → Nat × List String
  | [] => (0, [])
  | t :: rest =>
      let r := coverScan cppTests rest
      if (mapTestNames t cppTests).isEmpty then (r.1, t :: r.2) else (r.1 + 1, r.2)

/-- The per-category body of `TestCoverageAnalyzer.analyze_coverage`,
including `coverage = (covered / len(cs_tests) * 100) if cs_tests else 100`. -/
def analyzeCategory (csTests cppTests : List String) : CategoryAnalysis :=
  let r := coverScan cppTests csTests
  { csCount := csTests.length
    cppCount := cppTests.length
    covered := r.1
    missing := r.2
    coverage :=
      if csTests.isEmpty then 100
      else (r.1 : ℚ) / (csTests.length : ℚ) * 100 }

/-- C5: a category whose reference (C#) test list is empty reports coverage
100 by the `if cs_tests … else 100` guard, and the embedded computation is a
total function, so no division-by-zero error occurs. -/
theorem analyzeCategory_empty_is_hundred (cppTests : List String) :
    (analyzeCategory [] cppTests).coverage = 100 := rfl

lemma coverScan_partition (cppTests : List String) :
    ∀ csTests : List String,
      (coverScan cppTests csTests).1 + (coverScan cppTests csTests).2.length
        = csTests.length := by
  intro csTests
  induction csTests with
  | nil => rfl
  | cons t rest ih =>
      by_cases h : (mapTestNames t cppTests).isEmpty <;>
        simp [coverScan, h] <;> omega

/-- C6: in every category, the number of covered reference tests plus the
number of missing reference tests equals the total number of reference tests
of that category. -/
theorem analyzeCategory_covered_add_missing (csTests cppTests : List String) :
    (analyzeCategory csTests cppTests).covered
      + (analyzeCategory csTests cppTests).missing.length
      = (analyzeCategory csTests cppTests).csCount :=
  coverScan_partition cppTests csTests

/-- One `groups[key].append(x)` step on the insertion-ordered association
list that models a Python `defaultdict(list)`: an existing key has `x`
appended to its list, a new key is appended at the end. -/
def insertGrouped {α β : Type} [DecidableEq β] (k : β) (x : α) :
    List (β × List α) → List (β × List α)
  | [] => [(k, [x])]
  | (k', v) :: rest =>
      if k' = k then (k', v ++ [x]) :: rest else (k', v) :: insertGrouped k x rest

/-- The grouping loops of `DuplicateChecker.find_similar_filenames` and
`ImplementationDuplicateChecker.find_implementation_files`: files are
processed in enumeration order. -/
def groupAux {α β : Type} [DecidableEq β] (f : α → β)
    (acc : List (β × List α)) : List α → List (β × List α)
  | [] => acc
  | x :: rest => groupAux f (insertGrouped (f x) x acc) rest

/-- Group a list by a key function, keeping insertion order of keys and of
members within a key. -/
def groupByKey {α β : Type} [DecidableEq β] (f : α → β) (l : List α) :
    List (β × List α) :=
  groupAux f [] l

/-- The `{k: v for k, v in groups.items() if len(v) > 1}` filter shared by
both duplicate-group builders. -/
def dupGroupsBy {α β : Type} [DecidableEq β] (f : α → β) (l : List α) :
    List (β × List α) :=
  (groupByKey f l).filter (fun kv => 1 < kv.2.length)

/-- A scanned file as the duplicate checkers see it: its path and its stem
(`Path.stem`, computed by the tree walker). -/
structure SourceUnit where
  path : String
  stem : String
deriving DecidableEq

/-- `ImplementationDuplicateChecker.find_implementation_files`: group by the
one-suffix-stripped stem, keep groups with more than one file. -/
def findImplementationFiles (files : List SourceUnit) : List (String × List SourceUnit) :=
  dupGroupsBy (fun u => stripOneSuffix u.stem) files

/-- `DuplicateChecker.find_similar_filenames`: group by the
`suffix_pattern.sub('', file.stem)` base name, keep groups with more than
one file. -/
def findSimilarFilenames (files : List SourceUnit) : List (String × List SourceUnit) :=
  dupGroupsBy (fun u => (subAllSuffixPat u.stem.toList).asString) files

lemma insertGrouped_keys {α β : Type} [DecidableEq β] (k : β) (x : α)
    (acc : List (β × List α)) :
    (insertGrouped k x acc).map Prod.fst =
      if k ∈ acc.map Prod.fst then acc.map Prod.fst else acc.map Prod.fst ++ [k] := by
  induction acc with
  | nil => simp [insertGrouped]
  | cons kv rest ih =>
      obtain ⟨k', v⟩ := kv
      by_cases h : k' = k
      · subst h
        simp [insertGrouped]
      · have hne : k ≠ k' := fun hh => h hh.symm
        by_cases hmem : k ∈ rest.map Prod.fst <;>
          simp [insertGrouped, h, hne, hmem, ih]

lemma insertGrouped_not_mem {α β : Type} [DecidableEq β] {k : β} (x : α) :
    ∀ {acc : List (β × List α)}, k ∉ acc.map Prod.fst →
      insertGrouped k x acc = acc ++ [(k, [x])] := by
  intro acc
  induction acc with
  | nil => intro _; rfl
  | cons kv rest ih =>
      obtain ⟨k', v⟩ := kv
      intro h
      have h1 : k' ≠ k := by
        intro hh
        exact h (by simp [hh])
      have h2 : k ∉ rest.map Prod.fst := fun hh => h (by simp [hh])
      simp [insertGrouped, h1, ih h2]

lemma insertGrouped_mem_char {α β : Type} [DecidableEq β] {k k0 : β}
    {v : List α} (x : α) :
    ∀ {acc : List (β × List α)}, (acc.map Prod.fst).Nodup →
      (k, v) ∈ insertGrouped k0 x acc → k0 ∈ acc.map Prod.fst →
      ((k, v) ∈ acc ∧ k ≠ k0) ∨ (k = k0 ∧ ∃ v', (k0, v') ∈ acc ∧ v = v' ++ [x]) := by
  intro acc
  induction acc with
  | nil => intro _ _ h; simp at h
  | cons kv rest ih =>
      obtain ⟨k', v'⟩ := kv
      intro hnd hmem hk0
      have hnd' : (k' :: rest.map Prod.fst).Nodup := by simpa using hnd
      have hnd1 : k' ∉ rest.map Prod.fst := (List.nodup_cons.mp hnd').1
      have hnd2 : (rest.map Prod.fst).Nodup := (List.nodup_cons.mp hnd').2
      have hk0' : k0 ∈ k' :: rest.map Prod.fst := by simpa using hk0
      by_cases h : k' = k0
      · subst h
        simp only [insertGrouped, if_pos rfl] at hmem
        rcases List.mem_cons.mp hmem with heq | htail
        · have h1 : k = k' := congrArg Prod.fst heq
          have h2 : v = v' ++ [x] := congrArg Prod.snd heq
          exact Or.inr ⟨h1, v', by simp, h2⟩
        · refine Or.inl ⟨List.mem_cons_of_mem _ htail, ?_⟩
          intro hkk
          subst hkk
          exact hnd1 (List.mem_map.mpr ⟨(k, v), htail, rfl⟩)
      · simp only [insertGrouped, if_neg h] at hmem
        have hk0'' : k0 ∈ rest.map Prod.fst := by
          rcases List.mem_cons.mp hk0' with hh | hh
          · exact absurd hh.symm h
          · exact hh
        rcases List.mem_cons.mp hmem with heq | htail
        · have h1 : k = k' := congrArg Prod.fst heq
          refine Or.inl ⟨by simp [heq], ?_⟩
          subst h1
          exact h
        · rcases ih hnd2 htail hk0'' with ⟨hm, hne⟩ | ⟨hk, v'', hv'', he⟩
          · exact Or.inl ⟨List.mem_cons_of_mem _ hm, hne⟩
          · exact Or.inr ⟨hk, v'', List.mem_cons_of_mem _ hv'', he⟩

lemma filter_key_nil {α β : Type} [DecidableEq β] (f : α → β) {a : β}
    {l : List α} (h : a ∉ l.map f) :
    l.filter (fun y => f y = a) = [] := by
  rw [List.filter_eq_nil_iff]
  intro y hy
  simp only [decide_eq_true_eq]
  intro hf
  exact h (List.mem_map.mpr ⟨y, hy, hf⟩)

lemma groupAux_inv {α β : Type} [DecidableEq β] (f : α → β) :
    ∀ (l : List α) (acc : List (β × List α)) (seen : List α),
      (∀ kv ∈ acc, kv.2 = seen.filter (fun y => f y = kv.1)) →
      ((acc.map Prod.fst).Nodup) →
      (∀ k, k ∈ acc.map Prod.fst ↔ k ∈ seen.map f) →
      (∀ kv ∈ groupAux f acc l, kv.2 = (seen ++ l).filter (fun y => f y = kv.1)) ∧
        ((groupAux f acc l).map Prod.fst).Nodup ∧
        (∀ k, k ∈ (groupAux f acc l).map Prod.fst ↔ k ∈ (seen ++ l).map f) := by
  intro l
  induction l with
  | nil =>
      intro acc seen h1 h2 h3
      simp only [groupAux, List.append_nil]
      exact ⟨h1, h2, h3⟩
  | cons x rest ih =>
      intro acc seen h1 h2 h3
      have hstep1 : ∀ kv ∈ insertGrouped (f x) x acc,
          kv.2 = (seen ++ [x]).filter (fun y => f y = kv.1) := by
        by_cases hin : f x ∈ acc.map Prod.fst
        · intro kv hkv
          obtain ⟨k, v⟩ := kv
          rcases insertGrouped_mem_char x h2 hkv hin with ⟨hm, hne⟩ | ⟨hk, v', hv', he⟩
          · have hv := h1 (k, v) hm
            have hne' : ¬ f x = k := fun hh => hne hh.symm
            simp only at hv
            simp [List.filter_append, List.filter_cons, hne', hv]
          · subst hk
            have hv := h1 (f x, v') hv'
            simp only at hv
            simp [List.filter_append, List.filter_cons, hv, he]
        · rw [insertGrouped_not_mem x hin]
          intro kv hkv
          rcases List.mem_append.mp hkv with hold | hnew
          · obtain ⟨k, v⟩ := kv
            have hv := h1 (k, v) hold
            have hne : k ≠ f x := by
              intro hh
              exact hin (hh ▸ List.mem_map.mpr ⟨(k, v), hold, rfl⟩)
            have hne' : ¬ f x = k := fun hh => hne hh.symm
            simp only at hv
            simp [List.filter_append, List.filter_cons, hne', hv]
          · have hkv' : kv = (f x, [x]) := by simpa using hnew
            subst hkv'
            have hseen : f x ∉ seen.map f := fun hh => hin ((h3 (f x)).mpr hh)
            simp [List.filter_append, filter_key_nil f hseen, List.filter_cons]
      have hstep2 : ((insertGrouped (f x) x acc).map Prod.fst).Nodup := by
        rw [insertGrouped_keys]
        by_cases hin : f x ∈ acc.map Prod.fst
        · simpa [hin] using h2
        · simp [hin, List.nodup_append, h2]
      have hstep3 : ∀ k, k ∈ (insertGrouped (f x) x acc).map Prod.fst ↔
          k ∈ (seen ++ [x]).map f := by
        intro k
        rw [insertGrouped_keys]
        by_cases hin : f x ∈ acc.map Prod.fst
        · simp only [if_pos hin, List.map_append, List.mem_append, List.map_cons,
            List.map_nil, List.mem_singleton]
          rw [h3]
          constructor
          · exact fun h => Or.inl h
          · rintro (h | h)
            · exact h
            · subst h
              exact (h3 (f x)).mp hin
        · simp only [if_neg hin, List.mem_append, List.map_append, List.map_cons,
            List.map_nil, List.mem_singleton]
          rw [h3]
      have hrec := ih (insertGrouped (f x) x acc) (seen ++ [x]) hstep1 hstep2 hstep3
      have harr : (seen ++ [x]) ++ rest = seen ++ x :: rest := by simp
      rw [harr] at hrec
      simpa only [groupAux] using hrec

lemma groupByKey_char {α β : Type} [DecidableEq β] (f : α → β) (l : List α) :
    (∀ kv ∈ groupByKey f l, kv.2 = l.filter (fun y => f y = kv.1)) ∧
      ((groupByKey f l).map Prod.fst).Nodup ∧
      (∀ k, k ∈ (groupByKey f l).map Prod.fst ↔ k ∈ l.map f) := by
  have h := groupAux_inv f l [] [] (by simp) (by simp) (by simp)
  simpa only [groupByKey, List.nil_append] using h

/-- C7: every reported duplicate group has more than one member, and group
membership is functional in the normalized base name: a file found in two
reported groups forces the two group keys to coincide, so no file appears in
two different groups.  The statement is generic in the key function and so
covers both `find_similar_filenames` and `find_implementation_files`. -/
theorem dupGroups_min_two_and_disjoint {α β : Type} [DecidableEq β]
    (f : α → β) (l : List α) :
    (∀ kv ∈ dupGroupsBy f l, 2 ≤ kv.2.length) ∧
      (∀ (k₁ : β) (v₁ : List α) (k₂ : β) (v₂ : List α) (x : α),
        (k₁, v₁) ∈ dupGroupsBy f l → (k₂, v₂) ∈ dupGroupsBy f l →
        x ∈ v₁ → x ∈ v₂ → k₁ = k₂) := by
  constructor
  · intro kv hkv
    have h := (List.mem_filter.mp hkv).2
    simp only [decide_eq_true_eq] at h
    omega
  · intro k1 v1 k2 v2 x h1 h2 hx1 hx2
    have c1 : v1 = l.filter (fun y => f y = k1) :=
      (groupByKey_char f l).1 (k1, v1) (List.mem_filter.mp h1).1
    have c2 : v2 = l.filter (fun y => f y = k2) :=
      (groupByKey_char f l).1 (k2, v2) (List.mem_filter.mp h2).1
    have e1 : f x = k1 := by
      have := List.of_mem_filter (c1 ▸ hx1)
      simpa using this
    have e2 : f x = k2 := by
      have := List.of_mem_filter (c2 ▸ hx2)
      simpa using this
    exact e1.symm.trans e2

/-- C7 (witness): the two files `src/core/foo.cpp` and `src/core/foo_old.cpp`
form the single implementation-duplicate group `foo`; the theorem applied to
this corpus yields its group-size bound and key agreement. -/
theorem dupGroups_min_two_and_disjoint_witness :
    (("foo", [(⟨"src/core/foo.cpp", "foo"⟩ : SourceUnit), ⟨"src/core/foo_old.cpp", "foo_old"⟩])
        ∈ findImplementationFiles
          [⟨"src/core/foo.cpp", "foo"⟩, ⟨"src/core/foo_old.cpp", "foo_old"⟩]) ∧
      2 ≤ ([(⟨"src/core/foo.cpp", "foo"⟩ : SourceUnit),
            ⟨"src/core/foo_old.cpp", "foo_old"⟩]).length ∧
      ("foo" : String) = "foo" := by
  refine ⟨by decide, ?_, ?_⟩
  · exact (dupGroups_min_two_and_disjoint (fun u : SourceUnit => stripOneSuffix u.stem)
      ([⟨"src/core/foo.cpp", "foo"⟩, ⟨"src/core/foo_old.cpp", "foo_old"⟩] : List SourceUnit)).1
      ("foo", ([⟨"src/core/foo.cpp", "foo"⟩, ⟨"src/core/foo_old.cpp", "foo_old"⟩] : List SourceUnit))
      (by decide)
  · exact (dupGroups_min_two_and_disjoint (fun u : SourceUnit => stripOneSuffix u.stem)
      ([⟨"src/core/foo.cpp", "foo"⟩, ⟨"src/core/foo_old.cpp", "foo_old"⟩] : List SourceUnit)).2
      "foo" ([⟨"src/core/foo.cpp", "foo"⟩, ⟨"src/core/foo_old.cpp", "foo_old"⟩] : List SourceUnit)
      "foo" ([⟨"src/core/foo.cpp", "foo"⟩, ⟨"src/core/foo_old.cpp", "foo_old"⟩] : List SourceUnit)
      (⟨"src/core/foo.cpp", "foo"⟩ : SourceUnit) (by decide) (by decide) (by decide) (by decide)

/-- One iteration of the `for file in files` loop of
`DuplicateChecker.find_duplicate_implementations`.  A file is a path paired
with `some content` (readable) or `none` (the `file.read_text` call raises).
A readable file's extracted function and class names are appended to the
respective location dictionaries; an unreadable file adds nothing and its
path is recorded as a printed warning.  The extractors are kept abstract:
the claim concerns only the error path of the loop. -/
def scanStep (exF exC : String → List String)
    (acc : List (String × List String) × List (String × List String) × List String)
    (pf : String × Option String) :
    List (String × List String) × List (String × List String) × List String :=
  match pf.2 with
  | none => (acc.1, acc.2.1, acc.2.2 ++ [pf.1])
  | some content =>
      ((exF content).foldl (fun m fn => insertGrouped fn pf.1 m) acc.1,
       (exC content).foldl (fun m cn => insertGrouped cn pf.1 m) acc.2.1,
       acc.2.2)

/-- The whole scanning loop of `find_duplicate_implementations`. -/
def scanUnits (exF exC : String → List String)
    (files : List (String × Option String)) :
    List (String × List String) × List (String × List String) × List String :=
  files.foldl (scanStep exF exC) ([], [], [])

/-- `DuplicateChecker.find_duplicate_implementations`: scan all files, then
keep the function and class names seen in more than one file; the third
component collects the non-fatal warnings. -/
def findDuplicateImplementations (exF exC : String → List String)
    (files : List (String × Option String)) :
    List (String × List String) × List (String × List String) × List String :=
  let r := scanUnits exF exC files
  (r.1.filter (fun kv => 1 < kv.2.length),
   r.2.1.filter (fun kv => 1 < kv.2.length),
   r.2.2)

lemma scanFold_first_two (exF exC : String → List String) :
    ∀ (files : List (String × Option String)) (a b : List (String × List String))
      (w w' : List String),
      ((files.foldl (scanStep exF exC) (a, b, w)).1,
        (files.foldl (scanStep exF exC) (a, b, w)).2.1) =
      ((files.foldl (scanStep exF exC) (a, b, w')).1,
        (files.foldl (scanStep exF exC) (a, b, w')).2.1) := by
  intro files
  induction files with
  | nil => intro a b w w'; rfl
  | cons pf rest ih =>
      intro a b w w'
      obtain ⟨p, o⟩ := pf
      cases o with
      | none => simpa [scanStep] using ih a b (w ++ [p]) (w' ++ [p])
      | some c => simpa [scanStep] using ih _ _ w w'

lemma scanFold_split (exF exC : String → List String) :
    ∀ (files : List (String × Option String)) (a b : List (String × List String))
      (w : List String),
      files.foldl (scanStep exF exC) (a, b, w) =
        (((files.filter (fun pf => pf.2.isSome)).foldl (scanStep exF exC) (a, b, w)).1,
         ((files.filter (fun pf => pf.2.isSome)).foldl (scanStep exF exC) (a, b, w)).2.1,
         w ++ (files.filter (fun pf => pf.2.isNone)).map Prod.fst) := by
  intro files
  induction files with
  | nil => intro a b w; simp
  | cons pf rest ih =>
      intro a b w
      obtain ⟨p, o⟩ := pf
      cases o with
      | none =>
          have hstep : (p, (none : Option String)) :: rest = ((p, none) :: rest) := rfl
          have h1 := ih a b (w ++ [p])
          have h2 := scanFold_first_two exF exC (rest.filter (fun pf => pf.2.isSome))
            a b (w ++ [p]) w
          simp only [List.foldl_cons, scanStep] at *
          simp only [List.filter_cons, Option.isSome_none, Bool.false_eq_true, if_false,
            Option.isNone_none, if_true, List.map_cons]
          rw [h1]
          have e1 := congrArg Prod.fst h2
          have e2 := congrArg (fun q => q.2) h2
          simp only at e1 e2
          rw [e1, e2]
          simp
      | some c =>
          have h1 := ih ((exF c).foldl (fun m fn => insertGrouped fn p m) a)
            ((exC c).foldl (fun m cn => insertGrouped cn p m) b) w
          simp only [List.foldl_cons, scanStep] at *
          simp only [List.filter_cons, Option.isSome_some, if_true, Option.isNone_some,
            Bool.false_eq_true, if_false, List.foldl_cons]
          rw [h1]
          rfl

/-- C8 (amended): the recovery behaviour holds for
`find_duplicate_implementations` (`check_duplicates.py`), whose loop wraps
the read in `try`/`except`: an unreadable file never aborts that scan — the
run on any corpus equals the run on its readable files alone, every other
file's results are still produced, and each unreadable file contributes
nothing to the signatures (an empty signature) and exactly its path to the
recorded warnings.  It does not hold for `find_cs_tests` (see the
counterexample), which has no exception handling. -/
theorem findDuplicateImplementations_skips_unreadable
    (exF exC : String → List String) (files : List (String × Option String)) :
    findDuplicateImplementations exF exC files =
      ((findDuplicateImplementations exF exC (files.filter (fun pf => pf.2.isSome))).1,
       (findDuplicateImplementations exF exC (files.filter (fun pf => pf.2.isSome))).2.1,
       (files.filter (fun pf => pf.2.isNone)).map Prod.fst) := by
  unfold findDuplicateImplementations scanUnits
  rw [scanFold_split]
  rfl

/-- `DuplicateChecker.find_all_cpp_files`: the concatenated `rglob`
enumeration (whose order the OS determines), filtered by
`'build' not in str(f) and 'test' not in str(f)`.  No sorting is applied. -/
def findAllCppFiles (enumeration : List String) : List String :=
  enumeration.filter (fun f => !strContains f "build" && !strContains f "test")

/-- Python `sorted` on a list of strings, as used by
`ImplementationDuplicateChecker.generate_report` for member paths. -/
def sortStrings (l : List String) : List String := l.insertionSort (· ≤ ·)

/-- Python `sorted(impl_groups.items())` in `generate_report`: dictionary
items ordered by key (keys are unique, so the value part of the tuple
comparison is never consulted). -/
def sortByKey {γ : Type} (l : List (String × γ)) : List (String × γ) :=
  l.insertionSort (fun a b => a.1 ≤ b.1)

/-- The group/member listing emitted by
`ImplementationDuplicateChecker.generate_report`: groups sorted by base
name (`sorted(impl_groups.items())`), member paths sorted within each group
(`sorted(files)`). -/
def reportGroupListing (files : List SourceUnit) : List (String × List String) :=
  (sortByKey (findImplementationFiles files)).map
    (fun kv => (kv.1, sortStrings (kv.2.map SourceUnit.path)))

/-- C9 (counterexample): `find_all_cpp_files` performs no sorting — it
returns the enumeration order unchanged — and the duplicate-group report of
`check_duplicates.py` depends on that order: permuting the enumeration of
the same two files permutes the group's member list, so two runs whose OS
directory enumeration differs produce different report contents. -/
theorem enumeration_order_leaks_into_report :
    findAllCppFiles ["src/b.cpp", "src/a.cpp"] = ["src/b.cpp", "src/a.cpp"] ∧
      findSimilarFilenames
          [⟨"src/x_old.cpp", "x_old"⟩, ⟨"src/x_new.cpp", "x_new"⟩] ≠
        findSimilarFilenames
          [⟨"src/x_new.cpp", "x_new"⟩, ⟨"src/x_old.cpp", "x_old"⟩] := by
  decide

lemma dupGroupsBy_mem_iff {α β : Type} [DecidableEq β] (f : α → β) (l : List α)
    (k : β) (v : List α) :
    (k, v) ∈ dupGroupsBy f l ↔
      (k ∈ l.map f ∧ v = l.filter (fun y => f y = k) ∧ 1 < v.length) := by
  constructor
  · intro h
    have hm := (List.mem_filter.mp h).1
    have hc := (List.mem_filter.mp h).2
    simp only [decide_eq_true_eq] at hc
    have hv := (groupByKey_char f l).1 (k, v) hm
    have hk : k ∈ (groupByKey f l).map Prod.fst :=
      List.mem_map.mpr ⟨(k, v), hm, rfl⟩
    exact ⟨((groupByKey_char f l).2.2 k).mp hk, hv, hc⟩
  · rintro ⟨hk, hv, hlen⟩
    have hk' : k ∈ (groupByKey f l).map Prod.fst :=
      ((groupByKey_char f l).2.2 k).mpr hk
    obtain ⟨⟨k', v'⟩, hmem, heq⟩ := List.mem_map.mp hk'
    simp only at heq
    have heq2 : k = k' := heq.symm
    subst heq2
    have hv' : v' = l.filter (fun y => f y = k) :=
      (groupByKey_char f l).1 (k, v') hmem
    have : v = v' := hv.trans hv'.symm
    subst this
    exact List.mem_filter.mpr ⟨hmem, by simpa using hlen⟩

lemma dupGroupsBy_keys_nodup {α β : Type} [DecidableEq β] (f : α → β) (l : List α) :
    ((dupGroupsBy f l).map Prod.fst).Nodup :=
  ((groupByKey_char f l).2.1).sublist ((List.filter_sublist _).map Prod.fst)

lemma dupGroupsBy_keys_mem {α β : Type} [DecidableEq β] (f : α → β) (l : List α)
    (k : β) :
    k ∈ (dupGroupsBy f l).map Prod.fst ↔
      (k ∈ l.map f ∧ 1 < (l.filter (fun y => f y = k)).length) := by
  constructor
  · intro h
    obtain ⟨⟨k', v⟩, hmem, heq⟩ := List.mem_map.mp h
    simp only at heq
    have heq2 : k = k' := heq.symm
    subst heq2
    obtain ⟨h1, h2, h3⟩ := (dupGroupsBy_mem_iff f l k v).mp hmem
    exact ⟨h1, h2 ▸ h3⟩
  · rintro ⟨h1, h2⟩
    have := (dupGroupsBy_mem_iff f l k (l.filter (fun y => f y = k))).mpr ⟨h1, rfl, h2⟩
    exact List.mem_map.mpr ⟨_, this, rfl⟩

lemma sortStrings_eq_of_perm {a b : List String} (h : a.Perm b) :
    sortStrings a = sortStrings b :=
  List.eq_of_perm_of_sorted
    ((List.perm_insertionSort _ a).trans (h.trans (List.perm_insertionSort _ b).symm))
    (List.sorted_insertionSort _ a) (List.sorted_insertionSort _ b)

lemma map_fst_orderedInsert {γ : Type} (x : String × γ) (e : List (String × γ)) :
    (List.orderedInsert (fun a b => a.1 ≤ b.1) x e).map Prod.fst =
      List.orderedInsert (· ≤ ·) x.1 (e.map Prod.fst) := by
  induction e with
  | nil => rfl
  | cons y t ih =>
      simp only [List.orderedInsert, List.map_cons]
      by_cases h : x.1 ≤ y.1
      · rw [if_pos h, if_pos h]
        simp
      · rw [if_neg h, if_neg h]
        simp only [List.map_cons, ih]

lemma map_fst_sortByKey {γ : Type} (e : List (String × γ)) :
    (sortByKey e).map Prod.fst = sortStrings (e.map Prod.fst) := by
  unfold sortByKey sortStrings
  induction e with
  | nil => rfl
  | cons x t ih =>
      simp only [List.insertionSort]
      rw [map_fst_orderedInsert, ih]

lemma pairlist_ext {γ : Type} (V : String → γ) :
    ∀ (q1 q2 : List (String × γ)),
      q1.map Prod.fst = q2.map Prod.fst →
      (∀ kv ∈ q1, kv.2 = V kv.1) → (∀ kv ∈ q2, kv.2 = V kv.1) → q1 = q2 := by
  intro q1
  induction q1 with
  | nil =>
      intro q2 h _ _
      cases q2 with
      | nil => rfl
      | cons y s => simp at h
  | cons x t ih =>
      intro q2 h hv1 hv2
      cases q2 with
      | nil => simp at h
      | cons y s =>
          simp only [List.map_cons, List.cons.injEq] at h
          have hx := hv1 x (by simp)
          have hy := hv2 y (by simp)
          have hxy : x = y := by
            have : x.2 = y.2 := by rw [hx, hy, h.1]
            exact Prod.ext h.1 this
          rw [hxy, ih s h.2 (fun kv hkv => hv1 kv (by simp [hkv]))
            (fun kv hkv => hv2 kv (by simp [hkv]))]

/-- C9 (amended): determinism holds only relative to the enumeration order
for `check_duplicates.py` (see the counterexample), but the group/member
listing of `check_implementation_duplicates.py`'s report is sorted — groups
by base name, member paths within each group — and is therefore invariant
under any permutation of the file enumeration: two runs that see the same
files in any order print the same listing. -/
theorem reportGroupListing_perm_invariant (l1 l2 : List SourceUnit)
    (h : l1.Perm l2) :
    reportGroupListing l1 = reportGroupListing l2 := by
  classical
  set f : SourceUnit → String := fun u => stripOneSuffix u.stem with hf
  have hmemf : ∀ k, k ∈ l1.map f ↔ k ∈ l2.map f := fun k => (h.map f).mem_iff
  have hfilter : ∀ k, (l1.filter (fun y => f y = k)).Perm (l2.filter (fun y => f y = k)) :=
    fun k => h.filter _
  have hkeys : ((dupGroupsBy f l1).map Prod.fst).Perm ((dupGroupsBy f l2).map Prod.fst) := by
    rw [List.perm_ext_iff_of_nodup (dupGroupsBy_keys_nodup f l1) (dupGroupsBy_keys_nodup f l2)]
    intro k
    rw [dupGroupsBy_keys_mem, dupGroupsBy_keys_mem]
    constructor
    · rintro ⟨h1, h2⟩
      exact ⟨(hmemf k).mp h1, (hfilter k).length_eq ▸ h2⟩
    · rintro ⟨h1, h2⟩
      exact ⟨(hmemf k).mpr h1, ((hfilter k).length_eq).symm ▸ h2⟩
  have hV : ∀ k, sortStrings ((l1.filter (fun y => f y = k)).map SourceUnit.path)
      = sortStrings ((l2.filter (fun y => f y = k)).map SourceUnit.path) :=
    fun k => sortStrings_eq_of_perm ((hfilter k).map _)
  have hlist : ∀ l : List SourceUnit,
      (reportGroupListing l).map Prod.fst = sortStrings ((dupGroupsBy f l).map Prod.fst) := by
    intro l
    unfold reportGroupListing findImplementationFiles
    rw [List.map_map]
    have hcomp : (Prod.fst ∘ fun kv : String × List SourceUnit =>
        (kv.1, sortStrings (kv.2.map SourceUnit.path))) = Prod.fst := rfl
    rw [hcomp, map_fst_sortByKey]
  have hval : ∀ (l : List SourceUnit) (kv : String × List String),
      kv ∈ reportGroupListing l →
      kv.2 = sortStrings ((l.filter (fun y => f y = kv.1)).map SourceUnit.path) := by
    intro l kv hkv
    unfold reportGroupListing findImplementationFiles at hkv
    obtain ⟨⟨k, v⟩, hmem, heq⟩ := List.mem_map.mp hkv
    have hmem' : (k, v) ∈ dupGroupsBy f l :=
      ((List.perm_insertionSort _ _).mem_iff).mp hmem
    have hv : v = l.filter (fun y => f y = k) :=
      ((dupGroupsBy_mem_iff f l k v).mp hmem').2.1
    subst heq
    simp only
    rw [hv]
  apply pairlist_ext
    (fun k => sortStrings ((l1.filter (fun y => f y = k)).map SourceUnit.path))
  · rw [hlist l1, hlist l2]
    exact sortStrings_eq_of_perm hkeys
  · exact fun kv hkv => hval l1 kv hkv
  · intro kv hkv
    rw [hval l2 kv hkv]
    exact (hV kv.1).symm

/-- C9 (witness): the sorted implementation-duplicates listing of two
concrete files is the same for both enumeration orders. -/
theorem reportGroupListing_perm_invariant_witness :
    reportGroupListing [⟨"src/core/foo.cpp", "foo"⟩, ⟨"src/core/foo_old.cpp", "foo_old"⟩]
      = reportGroupListing [⟨"src/core/foo_old.cpp", "foo_old"⟩, ⟨"src/core/foo.cpp", "foo"⟩] :=
  reportGroupListing_perm_invariant _ _
    (List.Perm.swap (⟨"src/core/foo_old.cpp", "foo_old"⟩ : SourceUnit)
      (⟨"src/core/foo.cpp", "foo"⟩ : SourceUnit) [])

/-- The file-reading loop of `TestCoverageAnalyzer.find_cs_tests`
(`analyze_test_coverage.py`): unlike `find_duplicate_implementations`, the
`open(filepath, 'r', encoding='utf-8', errors='ignore')` call has no
surrounding `try`/`except`, so a file whose open raises (modelled as `none`
content) propagates the exception out of the loop and the run aborts,
discarding every accumulated result; a readable file's (lossily decoded)
content is processed by the test-method extractor, kept abstract here
because the claim concerns only the error path.  Files are visited in
enumeration order, so the first unreadable file is the one reported. -/
def findCsTestsScan (extract : String → List String) :
    List (String × Option String) → Except String (List String)
  | [] => Except.ok []
  | (p, none) :: _ => Except.error p
  | (_, some content) :: rest =>
      match findCsTestsScan extract rest with
      | Except.error e => Except.error e
      | Except.ok acc => Except.ok (extract content ++ acc)

/-- C8 (counterexample): the claim fails for `find_cs_tests`, its second
cited source.  On a corpus whose second file is unreadable, the run does not
continue: the exception from `open()` propagates, no warning is recorded,
and the results for the other two readable files are lost — the scan
returns an error instead of any result list. -/
theorem findCsTests_aborts_on_unreadable :
    findCsTestsScan (fun c => [c])
        [("a.cs", some "TestA"), ("bad.cs", none), ("c.cs", some "TestC")]
      = Except.error "bad.cs" := rfl

end NeoAnalysis
